import Mathlib

/-!
Verification of the spinlock mutex and the memory-ordering experiments of
src/main.rs. The mutex is embedded several times, each faithful to the
source at a different level of detail: a sequential functional semantics of
with_lock for the single-caller contract, a semantics where the closure may
unwind, a trace semantics of the acquisition loop that counts scheduler
yields, a statement-level transcription recording the memory-ordering
annotations, and an interleaving small-step semantics for the multi-thread
counter test. The four-thread experiment of main and the bodies of the
too_relaxed threads are embedded as a small-step relation and as pure
functions respectively.
-/

namespace RustAtomics

/-- Source line 4: the flag value meaning the lock is held. -/
def LOCKED : Bool := true

/-- Source line 5: the flag value meaning the lock is free. -/
def UNLOCKED : Bool := false

/-- The Mutex struct of source lines 7-10: an atomic boolean flag plus the
protected payload held in a cell. -/
structure Mutex (T : Type u) where
  locked : Bool
  v : T
deriving DecidableEq

/-- Mutex::new of source lines 15-20: flag UNLOCKED, payload stored as
given. -/
def Mutex.new (t : T) : Mutex T :=
  ⟨UNLOCKED, t⟩

/-- Sequential semantics of Mutex::with_lock (source lines 21-42) for one
caller. The closure receives the payload and returns the updated payload
together with its result, modelling the mutable reference of line 38. When
the flag is already LOCKED and no other thread exists to release it, the
loop of lines 26-36 spins forever, modelled as none; otherwise the CAS of
line 28 succeeds at once, the closure runs on the payload, the store of
line 39 resets the flag to UNLOCKED, and line 40 returns the closure
result. -/
def Mutex.with_lock (m : Mutex T) (f : T → T × R) : Option (Mutex T × R) :=
  if m.locked = LOCKED then none
  else some (⟨UNLOCKED, (f m.v).1⟩, (f m.v).2)

/-- Sequential semantics of with_lock when the closure may unwind: the
closure either returns normally or aborts with a panic payload. The source
stores UNLOCKED (line 39) only after the closure returns, so on an unwind
that store is skipped and the flag keeps the value LOCKED written by the
successful CAS of line 28; the unwind propagates to the caller, paired here
with the mutex state left behind. -/
def Mutex.with_lock_u (m : Mutex T) (f : T → Except E (T × R)) :
    Option (Except (E × Mutex T) (Mutex T × R)) :=
  if m.locked = LOCKED then none
  else
    match f m.v with
    | Except.error e => some (Except.error (e, ⟨LOCKED, m.v⟩))
    | Except.ok vr => some (Except.ok (⟨UNLOCKED, vr.1⟩, vr.2))

/-- Position inside the acquisition loop of with_lock (source lines 26-36):
at the compare_exchange_weak at the head of the outer loop, or at the
relaxed load at the head of the inner spin loop. -/
inductive AcqPos where
  | atCas
  | atLoad
deriving DecidableEq

/-- Trace of one acquisition. The list records the outcome of each atomic
operation the loop performs, in order: for a compare_exchange_weak step the
entry is true exactly when that CAS succeeds (a weak CAS may also fail
spuriously), and for a load step the entry is the flag value the load
observes. The result is the unconsumed part of the list together with the
number of thread::yield_now calls performed (source lines 33 and 35) before
the CAS succeeds, or none when the list is exhausted before acquisition. -/
def acquireAux : List Bool → AcqPos → Option (List Bool × Nat)
  | [], _ => none
  | b :: rest, AcqPos.atCas =>
    if b then some (rest, 0)
    else acquireAux rest AcqPos.atLoad
  | b :: rest, AcqPos.atLoad =>
    if b = LOCKED then
      (acquireAux rest AcqPos.atLoad).map (fun p => (p.1, p.2 + 1))
    else
      (acquireAux rest AcqPos.atCas).map (fun p => (p.1, p.2 + 1))

/-- Number of yields a with_lock call performs before the protected closure
runs, when the atomic operations of its acquisition loop observe the given
outcomes. -/
def with_lock_yields (env : List Bool) : Option Nat :=
  (acquireAux env AcqPos.atCas).map (fun p => p.2)

/-- Memory orderings of std::sync::atomic::Ordering used in the source. -/
inductive MemOrd where
  | relaxed
  | acquire
  | release
  | acqRel
  | seqCst
deriving DecidableEq

/-- Statement shapes of the with_lock body at the level of operations on
the locked flag. -/
inductive WInstr where
  | cmpxchgWeakLoop (expected desired : Bool) (success failure : MemOrd)
      (onFail : List WInstr)
  | loadSpinWhileEq (val : Bool) (ord : MemOrd) (body : List WInstr)
  | yieldNow
  | callClosure
  | storeFlag (val : Bool) (ord : MemOrd)

/-- The body of Mutex::with_lock, source lines 26-40, transcribed statement
by statement with the memory-ordering annotation of every atomic operation:
while compare_exchange_weak(UNLOCKED, LOCKED, Acquire, Relaxed) fails, spin
on a Relaxed load while the flag reads LOCKED, yielding each iteration,
then yield once more and retry the CAS; after the CAS succeeds run the
closure and store UNLOCKED with Release ordering. -/
def with_lock_code : List WInstr :=
  [WInstr.cmpxchgWeakLoop UNLOCKED LOCKED MemOrd.acquire MemOrd.relaxed
      [WInstr.loadSpinWhileEq LOCKED MemOrd.relaxed [WInstr.yieldNow],
       WInstr.yieldNow],
   WInstr.callClosure,
   WInstr.storeFlag UNLOCKED MemOrd.release]

/-- Phase of one test thread of mutex_test (source lines 50-57) within its
current loop iteration. -/
inductive TPhase where
  | idle
  | held
  | incd
deriving DecidableEq

/-- State of one test thread: how many loop iterations it has fully
completed, and the phase within the current iteration (idle: not holding
the lock; held: the CAS of line 28 succeeded but the closure has not run;
incd: the closure of lines 53-55 has incremented but the store of line 39
has not run). -/
structure TSt where
  k : Nat
  ph : TPhase
deriving DecidableEq

/-- Contribution of one thread to the shared counter: its completed
iterations, plus one if its current increment has already been applied. -/
def TSt.contrib (t : TSt) : Nat :=
  t.k + (if t.ph = TPhase.incd then 1 else 0)

/-- Indicator that a thread is inside with_lock past a successful CAS. -/
def TSt.holdCnt (t : TSt) : Nat :=
  if t.ph = TPhase.idle then 0 else 1

/-- Global state of the mutex_test run: the lock flag, the shared counter,
and the states of the K spawned threads. -/
structure MState (K : Nat) where
  locked : Bool
  v : Nat
  ts : Fin K → TSt

/-- Number of threads currently holding the lock. -/
def numHolding {K : Nat} (ts : Fin K → TSt) : Nat :=
  ∑ j, (ts j).holdCnt

/-- Sum of all thread contributions to the counter. -/
def totalContrib {K : Nat} (ts : Fin K → TSt) : Nat :=
  ∑ j, (ts j).contrib

/-- Interleaving small-step semantics of mutex_test (source lines 46-64):
K threads each run M iterations of with_lock incrementing the shared
counter. cas is the successful compare_exchange_weak of line 28, which can
fire only while the flag is UNLOCKED (false); failed CAS attempts and the
spin loads of lines 32-35 do not change the state and are omitted as
stutter steps. inc is the closure of lines 53-55 running under the lock.
rel is the release store of line 39 together with the loop bookkeeping. -/
inductive MStep (M : Nat) : {K : Nat} → MState K → MState K → Prop where
  | cas {K : Nat} (s : MState K) (i : Fin K) :
      (s.ts i).ph = TPhase.idle → (s.ts i).k < M → s.locked = false →
      MStep M s ⟨true, s.v, Function.update s.ts i ⟨(s.ts i).k, TPhase.held⟩⟩
  | inc {K : Nat} (s : MState K) (i : Fin K) :
      (s.ts i).ph = TPhase.held →
      MStep M s ⟨s.locked, s.v + 1,
        Function.update s.ts i ⟨(s.ts i).k, TPhase.incd⟩⟩
  | rel {K : Nat} (s : MState K) (i : Fin K) :
      (s.ts i).ph = TPhase.incd →
      MStep M s ⟨false, s.v, Function.update s.ts i ⟨(s.ts i).k + 1, TPhase.idle⟩⟩

/-- Initial state of mutex_test (source line 48): a fresh mutex around 0,
every thread at the start of its loop. -/
def initM (K : Nat) : MState K :=
  ⟨UNLOCKED, 0, fun _ => ⟨0, TPhase.idle⟩⟩

/-- Inductive invariant of the mutex_test semantics: the flag counts the
lock holders (mutual exclusion), the shared counter equals the total
contribution of the threads, and every per-thread iteration count stays in
range. -/
def MInv (M : Nat) {K : Nat} (s : MState K) : Prop :=
  numHolding s.ts = (if s.locked then 1 else 0) ∧
  s.v = totalContrib s.ts ∧
  ∀ i, (s.ts i).k ≤ M ∧ ((s.ts i).ph ≠ TPhase.idle → (s.ts i).k < M)

/-- Final state of the K = 1, M = 1 instance of mutex_test, used to witness
the counter theorem on a concrete execution. -/
def doneM1 : MState 1 :=
  ⟨false, 1, fun _ => ⟨1, TPhase.idle⟩⟩

/-- Phase of a reader thread (t1 or t2) of the experiment in main: spinning
on its flag, about to check the other flag, about to increment z, finished
having incremented, or finished having skipped the increment. -/
inductive RPhase where
  | spin
  | check
  | bump
  | finInc
  | finSkip
deriving DecidableEq

/-- Whether a reader thread has finished. -/
def RPhase.finished (p : RPhase) : Prop :=
  p = RPhase.finInc ∨ p = RPhase.finSkip

/-- Global state of the four-thread experiment of main (source lines
90-115): the flags x and y, the counter z, whether the setter threads have
performed their store, and the phases of the two reader threads. -/
structure EState where
  x : Bool
  y : Bool
  z : Nat
  txDone : Bool
  tyDone : Bool
  t1 : RPhase
  t2 : RPhase
deriving DecidableEq

/-- Interleaving small-step semantics of the experiment. tx and ty are the
one-shot stores of lines 96-101. t1Exit is the spin loop of line 103
observing x = true (iterations observing false do not change the state and
are omitted); t1Yes and t1No are the load of y at line 104; t1Add is the
fetch_add of line 105. The t2 steps are symmetric (lines 108-113). -/
inductive EStep : EState → EState → Prop where
  | tx (s : EState) : s.txDone = false →
      EStep s { s with x := true, txDone := true }
  | ty (s : EState) : s.tyDone = false →
      EStep s { s with y := true, tyDone := true }
  | t1Exit (s : EState) : s.t1 = RPhase.spin → s.x = true →
      EStep s { s with t1 := RPhase.check }
  | t1Yes (s : EState) : s.t1 = RPhase.check → s.y = true →
      EStep s { s with t1 := RPhase.bump }
  | t1No (s : EState) : s.t1 = RPhase.check → s.y = false →
      EStep s { s with t1 := RPhase.finSkip }
  | t1Add (s : EState) : s.t1 = RPhase.bump →
      EStep s { s with z := s.z + 1, t1 := RPhase.finInc }
  | t2Exit (s : EState) : s.t2 = RPhase.spin → s.y = true →
      EStep s { s with t2 := RPhase.check }
  | t2Yes (s : EState) : s.t2 = RPhase.check → s.x = true →
      EStep s { s with t2 := RPhase.bump }
  | t2No (s : EState) : s.t2 = RPhase.check → s.x = false →
      EStep s { s with t2 := RPhase.finSkip }
  | t2Add (s : EState) : s.t2 = RPhase.bump →
      EStep s { s with z := s.z + 1, t2 := RPhase.finInc }

/-- Initial state of the experiment (source lines 92-94): both flags false,
counter zero, nothing run yet. -/
def initE : EState :=
  ⟨false, false, 0, false, false, RPhase.spin, RPhase.spin⟩

/-- Inductive invariant of the experiment: a reader past its spin loop has
seen its flag set (and flags are never cleared), the two readers cannot
both have skipped, and z counts the readers that have incremented. -/
def EInv (s : EState) : Prop :=
  (s.t1 ≠ RPhase.spin → s.x = true) ∧
  (s.t2 ≠ RPhase.spin → s.y = true) ∧
  ¬(s.t1 = RPhase.finSkip ∧ s.t2 = RPhase.finSkip) ∧
  s.z = (if s.t1 = RPhase.finInc then 1 else 0) +
        (if s.t2 = RPhase.finInc then 1 else 0)

/-- Final state of an execution in which both readers increment z. -/
def doneZ2 : EState :=
  ⟨true, true, 2, true, true, RPhase.finInc, RPhase.finInc⟩

/-- Final state of an execution in which only t2 increments z. -/
def doneZ1 : EState :=
  ⟨true, true, 1, true, true, RPhase.finSkip, RPhase.finInc⟩

/-- Thread t1 of the too_relaxed test (source lines 71-75): it loads y into
r1, stores r1 into x, and returns r1. Given the value its load observed,
the pair is the value it stores into x and the value it returns. -/
def tooRelaxedT1 (r1 : Nat) : Nat × Nat :=
  (r1, r1)

/-- Thread t2 of the too_relaxed test (source lines 76-80): it loads x into
r2, stores 42 into y, and returns r2. Given the value its load observed,
the pair is the value it stores into y and the value it returns. -/
def tooRelaxedT2 (r2 : Nat) : Nat × Nat :=
  (42, r2)

/-- C9: for every initial value, Mutex::new builds a mutex whose flag is
UNLOCKED and whose payload is exactly the given value, unmodified. -/
theorem mutex_new_unlocked {T : Type u} (t : T) :
    (Mutex.new t).locked = UNLOCKED ∧ (Mutex.new t).v = t :=
  ⟨rfl, rfl⟩

/-- C2: on an unlocked mutex, with_lock invokes the closure on the stored
payload, returns exactly the closure result, leaves as payload the value
the closure produced, and reports no failure (the result is some, never
none). -/
theorem with_lock_contract {T R : Type} (m : Mutex T) (f : T → T × R)
    (h : m.locked = UNLOCKED) :
    Mutex.with_lock m f = some (⟨UNLOCKED, (f m.v).1⟩, (f m.v).2) := by
  unfold Mutex.with_lock
  rw [h]
  simp [UNLOCKED, LOCKED]

/-- Witness for C2 at a concrete input: payload 5, closure adding one and
returning the doubled old value. -/
theorem with_lock_contract_wit :
    Mutex.with_lock (Mutex.new 5) (fun v => (v + 1, v * 2)) =
      some (⟨UNLOCKED, 6⟩, 10) :=
  with_lock_contract (Mutex.new 5) (fun v => (v + 1, v * 2)) rfl

/-- C3: whenever with_lock completes normally, the resulting mutex has its
flag UNLOCKED again and any further with_lock call on it succeeds at once,
with no residual state from the previous holder. -/
theorem with_lock_releases {T R S : Type} (m m2 : Mutex T) (f : T → T × R)
    (r : R) (h : Mutex.with_lock m f = some (m2, r)) :
    m2.locked = UNLOCKED ∧
    ∀ g : T → T × S, ∃ p, Mutex.with_lock m2 g = some p := by
  unfold Mutex.with_lock at h
  by_cases hl : m.locked = LOCKED
  · simp [hl] at h
  · simp only [hl, if_false] at h
    obtain ⟨hm, -⟩ := Prod.mk.injEq .. ▸ (Option.some.injEq .. ▸ h)
    constructor
    · rw [← hm]
    · intro g
      refine ⟨(⟨UNLOCKED, (g m2.v).1⟩, (g m2.v).2), ?_⟩
      unfold Mutex.with_lock
      rw [← hm]
      simp [UNLOCKED, LOCKED]

/-- Witness for C3 at a concrete input: with_lock on a fresh mutex around 3
with an incrementing closure yields the mutex with payload 4 and flag
UNLOCKED, which is immediately re-acquirable. -/
theorem with_lock_releases_wit :
    (⟨UNLOCKED, 4⟩ : Mutex Nat).locked = UNLOCKED ∧
    ∀ g : Nat → Nat × Nat, ∃ p,
      Mutex.with_lock (⟨UNLOCKED, 4⟩ : Mutex Nat) g = some p :=
  with_lock_releases (Mutex.new 3) ⟨UNLOCKED, 4⟩ (fun v => (v + 1, ())) () rfl

/-- C10: the outcome of with_lock is fully determined by one application of
the closure to the stored payload (the mutex code itself neither reads nor
writes the payload except through that single call), and a closure that
does not mutate its argument leaves the stored payload unchanged. -/
theorem with_lock_frame {T R : Type} (m : Mutex T) (f : T → T × R)
    (h : m.locked = UNLOCKED) :
    Mutex.with_lock m f = some (⟨UNLOCKED, (f m.v).1⟩, (f m.v).2) ∧
    ∀ g : T → R, Mutex.with_lock m (fun v => (v, g v)) =
      some (⟨UNLOCKED, m.v⟩, g m.v) := by
  unfold Mutex.with_lock
  rw [h]
  simp [UNLOCKED, LOCKED]

/-- Witness for C10 at a concrete input: payload 7, a read-only closure
leaves the payload at 7. -/
theorem with_lock_frame_wit :
    Mutex.with_lock (Mutex.new 7) (fun v => (v + 2, v)) =
      some (⟨UNLOCKED, 9⟩, 7) ∧
    ∀ g : Nat → Nat, Mutex.with_lock (Mutex.new 7) (fun v => (v, g v)) =
      some (⟨UNLOCKED, 7⟩, g 7) :=
  with_lock_frame (Mutex.new 7) (fun v => (v + 2, v)) rfl

/-- C4 counterexample: it is not the case that an unwind of the closure
leaves the flag UNLOCKED — with payload 0 and a closure that panics at
once, the mutex left behind has its flag LOCKED, because the release store
of source line 39 only runs after the closure returns normally. -/
theorem with_lock_unwind_cex :
    ¬(∀ (m : Mutex Nat) (f : Nat → Except Unit (Nat × Unit)),
        m.locked = UNLOCKED →
        ∀ e m2, Mutex.with_lock_u m f = some (Except.error (e, m2)) →
          m2.locked = UNLOCKED) := by
  intro h
  have h0 := h (Mutex.new 0) (fun _ => Except.error ()) rfl () ⟨LOCKED, 0⟩ rfl
  simp [LOCKED, UNLOCKED] at h0

/-- C4 amended: if the closure unwinds, the unwind propagates to the caller
carrying the panic payload, but the release store of line 39 is skipped, so
the lock flag stays LOCKED (not UNLOCKED) and the lock is left stuck. -/
theorem with_lock_unwind_leaves_locked {T R E : Type} (m : Mutex T)
    (f : T → Except E (T × R)) (e : E)
    (hu : m.locked = UNLOCKED) (hf : f m.v = Except.error e) :
    Mutex.with_lock_u (R := R) m f =
      some (Except.error (e, ⟨LOCKED, m.v⟩)) ∧ LOCKED ≠ UNLOCKED := by
  unfold Mutex.with_lock_u
  rw [hu, hf]
  simp [UNLOCKED, LOCKED]

/-- Witness for the amended C4 at a concrete input: payload 0, closure
panicking immediately. -/
theorem with_lock_unwind_leaves_locked_wit :
    Mutex.with_lock_u (R := Unit) (Mutex.new 0)
        (fun _ => (Except.error () : Except Unit (Nat × Unit))) =
      some (Except.error ((), ⟨LOCKED, 0⟩)) ∧ LOCKED ≠ UNLOCKED :=
  with_lock_unwind_leaves_locked (Mutex.new 0) (fun _ => Except.error ()) ()
    rfl rfl

/-- C5: the acquisition step of with_lock is a compare_exchange_weak from
UNLOCKED to LOCKED with Acquire ordering on success and Relaxed on failure,
the inner pre-check spin is a Relaxed read-only load repeated while the
flag reads LOCKED, and the unlock is a store of UNLOCKED with Release
ordering — exactly at these steps of the transcribed body. -/
theorem with_lock_orderings :
    with_lock_code =
      [WInstr.cmpxchgWeakLoop UNLOCKED LOCKED MemOrd.acquire MemOrd.relaxed
          [WInstr.loadSpinWhileEq LOCKED MemOrd.relaxed [WInstr.yieldNow],
           WInstr.yieldNow],
       WInstr.callClosure,
       WInstr.storeFlag UNLOCKED MemOrd.release] :=
  rfl

/-- C6 counterexample: it is not the case that every execution of with_lock
performs at least one yield before the protected operation — the execution
whose first CAS succeeds immediately performs zero yields, since both
yield_now calls (source lines 33 and 35) sit inside the failure branch of
the acquisition loop. -/
theorem with_lock_yields_cex :
    ¬(∀ env n, with_lock_yields env = some n → 1 ≤ n) := by
  intro h
  exact absurd (h [true] 0 rfl) (by decide)

/-- Helper: once the acquisition loop is in its inner spin, at least one
yield is performed before the loop can finish. -/
theorem acquireAux_atLoad_pos :
    ∀ (env : List Bool) (p : List Bool × Nat),
      acquireAux env AcqPos.atLoad = some p → 1 ≤ p.2 := by
  intro env
  induction env with
  | nil => intro p hp; exact absurd hp (by simp [acquireAux])
  | cons b rest ih =>
    intro p hp
    unfold acquireAux at hp
    by_cases hb : b = LOCKED
    · rw [if_pos hb] at hp
      cases hq : acquireAux rest AcqPos.atLoad with
      | none => rw [hq] at hp; exact absurd hp (by simp)
      | some q =>
        rw [hq, Option.map_some'] at hp
        injection hp with hp
        rw [← hp]
        exact Nat.succ_le_succ (Nat.zero_le q.2)
    · rw [if_neg hb] at hp
      cases hq : acquireAux rest AcqPos.atCas with
      | none => rw [hq] at hp; exact absurd hp (by simp)
      | some q =>
        rw [hq, Option.map_some'] at hp
        injection hp with hp
        rw [← hp]
        exact Nat.succ_le_succ (Nat.zero_le q.2)

/-- C6 amended: the acquisition loop yields only on the failure path — if
the first CAS attempt fails, at least one yield is performed before the
critical section is entered, while an execution whose first CAS succeeds
performs no yield at all before the protected operation runs. -/
theorem with_lock_yields_on_failure :
    (∀ env n, with_lock_yields (false :: env) = some n → 1 ≤ n) ∧
    with_lock_yields [true] = some 0 := by
  constructor
  · intro env n hn
    have hstep : acquireAux (false :: env) AcqPos.atCas =
        acquireAux env AcqPos.atLoad := by
      simp [acquireAux]
    unfold with_lock_yields at hn
    rw [hstep] at hn
    cases hq : acquireAux env AcqPos.atLoad with
    | none => rw [hq] at hn; exact absurd hn (by simp)
    | some q =>
      have hpos := acquireAux_atLoad_pos env q hq
      rw [hq, Option.map_some'] at hn
      injection hn with hn
      rw [← hn]
      exact hpos
  · rfl

/-- Witness for the amended C6 at a concrete trace: first CAS fails, the
spin load then observes UNLOCKED, and the retried CAS succeeds, giving
exactly one yield. -/
theorem with_lock_yields_on_failure_wit : 1 ≤ 1 :=
  with_lock_yields_on_failure.1 [false, true] 1 rfl

/-- Helper: effect on a sum over Fin K of updating one component, stated
additively to stay inside Nat. -/
theorem sum_update_add {K : Nat} (g : TSt → Nat) (f : Fin K → TSt) (i : Fin K)
    (a : TSt) :
    (∑ j, g (Function.update f i a j)) + g (f i) = (∑ j, g (f j)) + g a := by
  have h1 : (∑ j, g (Function.update f i a j)) =
      ∑ j, Function.update (fun k => g (f k)) i (g a) j :=
    Finset.sum_congr rfl fun j _ => Function.apply_update (fun _ t => g t) f i a j
  rw [h1, Finset.sum_update_of_mem (Finset.mem_univ i),
    Finset.sum_eq_sum_diff_singleton_add (Finset.mem_univ i) fun j => g (f j)]
  omega

/-- Helper: the initial state of mutex_test satisfies the invariant. -/
theorem minv_init (K M : Nat) : MInv M (initM K) := by
  refine ⟨?_, ?_, ?_⟩
  · simp [initM, numHolding, TSt.holdCnt, UNLOCKED]
  · simp [initM, totalContrib, TSt.contrib]
  · intro i
    exact ⟨Nat.zero_le M, fun h => absurd rfl h⟩

/-- Helper: every step of the mutex_test semantics preserves the
invariant. -/
theorem minv_step {K M : Nat} {s s2 : MState K} (hI : MInv M s)
    (hst : MStep M s s2) : MInv M s2 := by
  obtain ⟨h1, h2, h3⟩ := hI
  cases hst with
  | cas i hidle hk hlock =>
    refine ⟨?_, ?_, ?_⟩ <;> dsimp only
    · have hsum := sum_update_add TSt.holdCnt s.ts i ⟨(s.ts i).k, TPhase.held⟩
      have hold_old : TSt.holdCnt (s.ts i) = 0 := by simp [TSt.holdCnt, hidle]
      have hold_new : TSt.holdCnt ⟨(s.ts i).k, TPhase.held⟩ = 1 := by
        simp [TSt.holdCnt]
      rw [hlock] at h1
      simp only [Bool.false_eq_true, if_false] at h1
      rw [if_pos rfl]
      unfold numHolding at h1 ⊢
      omega
    · have csum := sum_update_add TSt.contrib s.ts i ⟨(s.ts i).k, TPhase.held⟩
      have c_old : TSt.contrib (s.ts i) = (s.ts i).k := by
        simp [TSt.contrib, hidle]
      have c_new : TSt.contrib ⟨(s.ts i).k, TPhase.held⟩ = (s.ts i).k := by
        simp [TSt.contrib]
      unfold totalContrib at h2 ⊢
      omega
    · intro j
      by_cases hj : j = i
      · subst hj
        rw [Function.update_same]
        exact ⟨Nat.le_of_lt hk, fun _ => hk⟩
      · rw [Function.update_noteq hj]
        exact h3 j
  | inc i hheld =>
    refine ⟨?_, ?_, ?_⟩ <;> dsimp only
    · have hsum := sum_update_add TSt.holdCnt s.ts i ⟨(s.ts i).k, TPhase.incd⟩
      have hold_old : TSt.holdCnt (s.ts i) = 1 := by simp [TSt.holdCnt, hheld]
      have hold_new : TSt.holdCnt ⟨(s.ts i).k, TPhase.incd⟩ = 1 := by
        simp [TSt.holdCnt]
      unfold numHolding at h1 ⊢
      omega
    · have csum := sum_update_add TSt.contrib s.ts i ⟨(s.ts i).k, TPhase.incd⟩
      have c_old : TSt.contrib (s.ts i) = (s.ts i).k := by
        simp [TSt.contrib, hheld]
      have c_new : TSt.contrib ⟨(s.ts i).k, TPhase.incd⟩ = (s.ts i).k + 1 := by
        simp [TSt.contrib]
      unfold totalContrib at h2 ⊢
      omega
    · intro j
      by_cases hj : j = i
      · subst hj
        rw [Function.update_same]
        have hkM : (s.ts j).k < M := (h3 j).2 (by rw [hheld]; intro hc; cases hc)
        exact ⟨Nat.le_of_lt hkM, fun _ => hkM⟩
      · rw [Function.update_noteq hj]
        exact h3 j
  | rel i hincd =>
    have hkM : (s.ts i).k < M := (h3 i).2 (by rw [hincd]; intro hc; cases hc)
    refine ⟨?_, ?_, ?_⟩ <;> dsimp only
    · have hsum := sum_update_add TSt.holdCnt s.ts i ⟨(s.ts i).k + 1, TPhase.idle⟩
      have hold_old : TSt.holdCnt (s.ts i) = 1 := by simp [TSt.holdCnt, hincd]
      have hold_new : TSt.holdCnt ⟨(s.ts i).k + 1, TPhase.idle⟩ = 0 := by
        simp [TSt.holdCnt]
      have hbound : TSt.holdCnt (s.ts i) ≤ ∑ j, TSt.holdCnt (s.ts j) :=
        Finset.single_le_sum (fun j _ => Nat.zero_le (TSt.holdCnt (s.ts j)))
          (Finset.mem_univ i)
      simp only [Bool.false_eq_true, if_false]
      unfold numHolding at h1 ⊢
      cases hl : s.locked with
      | true =>
        rw [hl, if_pos rfl] at h1
        omega
      | false =>
        rw [hl] at h1
        simp only [Bool.false_eq_true, if_false] at h1
        omega
    · have csum := sum_update_add TSt.contrib s.ts i ⟨(s.ts i).k + 1, TPhase.idle⟩
      have c_old : TSt.contrib (s.ts i) = (s.ts i).k + 1 := by
        simp [TSt.contrib, hincd]
      have c_new : TSt.contrib ⟨(s.ts i).k + 1, TPhase.idle⟩ = (s.ts i).k + 1 := by
        simp [TSt.contrib]
      unfold totalContrib at h2 ⊢
      omega
    · intro j
      by_cases hj : j = i
      · subst hj
        rw [Function.update_same]
        exact ⟨hkM, fun hc => absurd rfl hc⟩
      · rw [Function.update_noteq hj]
        exact h3 j

/-- Helper: the invariant holds in every state reachable from the initial
state of mutex_test. -/
theorem minv_reach {K M : Nat} {s : MState K}
    (h : Relation.ReflTransGen (MStep M) (initM K) s) : MInv M s := by
  induction h with
  | refl => exact minv_init K M
  | tail _ hstep ih => exact minv_step ih hstep

/-- C1: in every execution of the mutex_test semantics in which all K
threads have completed their M guarded increments, the shared counter is
exactly K * M and the lock is free — in particular for K = 100, M = 1000
the final value is 100 * 1000 = 100000, in every interleaving. -/
theorem mutex_contended_counter {K M : Nat} {s : MState K}
    (hreach : Relation.ReflTransGen (MStep M) (initM K) s)
    (hdone : ∀ i, s.ts i = ⟨M, TPhase.idle⟩) :
    s.v = K * M ∧ s.locked = false := by
  obtain ⟨h1, h2, h3⟩ := minv_reach hreach
  constructor
  · rw [h2]
    unfold totalContrib
    have hc : ∀ j : Fin K, (s.ts j).contrib = M := by
      intro j
      rw [hdone j]
      simp [TSt.contrib]
    rw [Finset.sum_congr rfl fun j _ => hc j]
    simp [Finset.sum_const, Finset.card_univ, Nat.mul_comm]
  · have hz : numHolding s.ts = 0 := by
      unfold numHolding
      refine Finset.sum_eq_zero ?_
      intro j _
      rw [hdone j]
      simp [TSt.holdCnt]
    rw [hz] at h1
    cases hl : s.locked with
    | false => rfl
    | true => rw [hl] at h1; simp at h1

/-- Helper: a complete three-step execution of the K = 1, M = 1 instance of
mutex_test, from the initial state to doneM1. -/
theorem reach_doneM1 :
    Relation.ReflTransGen (MStep 1) (initM 1) doneM1 := by
  refine Relation.ReflTransGen.head (MStep.cas (initM 1) 0 rfl (by decide) rfl) ?_
  refine Relation.ReflTransGen.head
    (MStep.inc _ 0 (by simp [initM, Function.update_same])) ?_
  refine Relation.ReflTransGen.head
    (MStep.rel _ 0 (by simp [initM, Function.update_same])) ?_
  have hcast : ∀ t : MState 1, t = doneM1 →
      Relation.ReflTransGen (MStep 1) t doneM1 := fun t ht =>
    ht ▸ Relation.ReflTransGen.refl
  apply hcast
  unfold doneM1
  congr 1
  funext j
  have hj : j = 0 := Subsingleton.elim j 0
  subst hj
  simp [Function.update_same, initM]

/-- Witness for C1 on the concrete K = 1, M = 1 execution: the final
counter is 1 * 1 and the lock is free. -/
theorem mutex_contended_counter_wit :
    doneM1.v = 1 * 1 ∧ doneM1.locked = false :=
  mutex_contended_counter reach_doneM1 fun _ => rfl

/-- Helper: the initial state of the experiment satisfies its invariant. -/
theorem einv_init : EInv initE := by
  refine ⟨fun h => absurd rfl h, fun h => absurd rfl h, ?_, rfl⟩
  rintro ⟨h, -⟩
  cases h

/-- Helper: every step of the experiment semantics preserves the
invariant. -/
theorem einv_step {s s2 : EState} (hI : EInv s) (hst : EStep s s2) :
    EInv s2 := by
  obtain ⟨i1, i2, i3, i4⟩ := hI
  cases hst <;> refine ⟨?_, ?_, ?_, ?_⟩ <;> simp_all <;> omega

/-- Helper: the invariant holds in every reachable state of the
experiment. -/
theorem einv_reach {s : EState} (h : Relation.ReflTransGen EStep initE s) :
    EInv s := by
  induction h with
  | refl => exact einv_init
  | tail _ hstep ih => exact einv_step ih hstep

/-- Helper: an interleaving in which tx runs, t1 checks y before ty has
run (so t1 skips), then ty and the whole of t2 run; it ends with z = 1. -/
theorem reach_doneZ1 : Relation.ReflTransGen EStep initE doneZ1 := by
  refine Relation.ReflTransGen.head (EStep.tx initE rfl) ?_
  refine Relation.ReflTransGen.head (EStep.t1Exit _ rfl rfl) ?_
  refine Relation.ReflTransGen.head (EStep.t1No _ rfl rfl) ?_
  refine Relation.ReflTransGen.head (EStep.ty _ rfl) ?_
  refine Relation.ReflTransGen.head (EStep.t2Exit _ rfl rfl) ?_
  refine Relation.ReflTransGen.head (EStep.t2Yes _ rfl rfl) ?_
  refine Relation.ReflTransGen.head (EStep.t2Add _ rfl) ?_
  exact Relation.ReflTransGen.refl

/-- Helper: an interleaving in which both setters run first and then both
readers run to completion; it ends with z = 2. -/
theorem reach_doneZ2 : Relation.ReflTransGen EStep initE doneZ2 := by
  refine Relation.ReflTransGen.head (EStep.tx initE rfl) ?_
  refine Relation.ReflTransGen.head (EStep.ty _ rfl) ?_
  refine Relation.ReflTransGen.head (EStep.t1Exit _ rfl rfl) ?_
  refine Relation.ReflTransGen.head (EStep.t1Yes _ rfl rfl) ?_
  refine Relation.ReflTransGen.head (EStep.t1Add _ rfl) ?_
  refine Relation.ReflTransGen.head (EStep.t2Exit _ rfl rfl) ?_
  refine Relation.ReflTransGen.head (EStep.t2Yes _ rfl rfl) ?_
  refine Relation.ReflTransGen.head (EStep.t2Add _ rfl) ?_
  exact Relation.ReflTransGen.refl

/-- C7: in the four-thread experiment, every execution in which both reader
threads have finished ends with z equal to 1 or 2 (so z = 0 is
unreachable), and both outcomes are realized: one explicit interleaving
ends with z = 1 and another with z = 2. -/
theorem experiment_z_values :
    (∀ s : EState, Relation.ReflTransGen EStep initE s →
        s.t1.finished → s.t2.finished → (s.z = 1 ∨ s.z = 2) ∧ s.z ≠ 0) ∧
    (Relation.ReflTransGen EStep initE doneZ1 ∧ doneZ1.z = 1) ∧
    (Relation.ReflTransGen EStep initE doneZ2 ∧ doneZ2.z = 2) := by
  refine ⟨?_, ⟨reach_doneZ1, rfl⟩, ⟨reach_doneZ2, rfl⟩⟩
  intro s hreach hf1 hf2
  obtain ⟨i1, i2, i3, i4⟩ := einv_reach hreach
  rcases hf1 with h1 | h1 <;> rcases hf2 with h2 | h2
  · rw [h1, h2] at i4
    simp at i4
    omega
  · rw [h1, h2] at i4
    simp at i4
    omega
  · rw [h1, h2] at i4
    simp at i4
    omega
  · exact absurd ⟨h1, h2⟩ i3

/-- Witness for C7 on the concrete z = 2 execution: its final z is 1 or 2
and not 0. -/
theorem experiment_z_values_wit :
    (doneZ2.z = 1 ∨ doneZ2.z = 2) ∧ doneZ2.z ≠ 0 :=
  experiment_z_values.1 doneZ2 reach_doneZ2 (Or.inl rfl) (Or.inl rfl)

/-- C8 counterexample: the value thread t2 stores into y does not depend on
the value it read from x — it is the constant 42 for every read value, so
no two read values give different stored values. -/
theorem too_relaxed_cex :
    ¬∃ a b : Nat, a ≠ b ∧ (tooRelaxedT2 a).1 ≠ (tooRelaxedT2 b).1 := by
  rintro ⟨a, b, -, hne⟩
  exact hne rfl

/-- C8 amended: both threads read the other counter and then write their
own; the value t1 stores into x is exactly the value it read from y (so it
does depend on the read), but t2 stores the constant 42 into y regardless
of the value it read from x, returning the read value unchanged. -/
theorem too_relaxed_stores :
    (∀ a : Nat, (tooRelaxedT1 a).1 = a ∧ (tooRelaxedT2 a).1 = 42 ∧
      (tooRelaxedT2 a).2 = a) ∧
    (tooRelaxedT1 0).1 ≠ (tooRelaxedT1 1).1 :=
  ⟨fun a => ⟨rfl, rfl, rfl⟩, by decide⟩

end RustAtomics
